import Mathlib

/- Verification of the AIJobScraper pipeline (job_agent.py / job_agent_2.py).

   Python strings are modelled as `List Char`, dictionaries with a fixed key
   set as structures, and `dict.get` on an optionally-present key as an
   `Option` field.  Stateful loops are embedded as folds or structural
   recursions that produce the same output sequence the loop appends.
   External effects (HTTP calls, page rendering, stdlib date parsing) are
   modelled as oracle inputs: the pure logic applied to their results is
   translated from the source. -/

/-- ASCII whitespace test, modelling Python str.strip() with no argument and
the regex class \s (the Python originals also accept a few further Unicode
whitespace characters, which no claim exercises). -/
def isSpc (c : Char) : Bool := c.isWhitespace

/-- Model of Python s.strip(chars): drop matching characters from both ends. -/
def trimIf (p : Char → Bool) (s : List Char) : List Char :=
  List.rdropWhile p (s.dropWhile p)

/-- Model of Python sep.join(pieces). -/
def joinSep (sep : List Char) : List (List Char) → List Char
  | [] => []
  | [x] => x
  | x :: xs => x ++ sep ++ joinSep sep xs

/-- A job listing dict as built by the scrapers: the keys
title/company/link/salary/summary/source are always present (possibly empty);
"description" is present only for feed-based listings, so job.get("description")
is modelled by an Option field. -/
structure Job where
  title : List Char
  company : List Char
  link : List Char
  salary : List Char
  summary : List Char
  source : List Char
  description : Option (List Char) := none
  deriving DecidableEq

/-- One iteration of the link-deduplication loop shared by
scrape_all_boards (job_agent_2.py lines 367-374) and main
(job_agent.py lines 384-389):
`if job["link"] and job["link"] not in seen: seen.add(job["link"]); unique.append(job)`.
The accumulator is the pair (seen, unique). -/
def dedupStep (st : List (List Char) × List Job) (job : Job) :
    List (List Char) × List Job :=
  if job.link ≠ [] ∧ job.link ∉ st.1 then (job.link :: st.1, st.2 ++ [job]) else st

/-- The normalizer/deduplicator applied to the merged adapter output
(the adapters' lists concatenated in adapter order). -/
def scrape_all_boards_dedup (all_jobs : List Job) : List Job :=
  (all_jobs.foldl dedupStep ([], [])).2

/-- Recursive form of the same loop; the fold above appends kept jobs in
iteration order, this version conses them, producing the same sequence. -/
def dedupLoop : List Job → List (List Char) → List Job
  | [], _ => []
  | j :: rest, seen =>
    if j.link ≠ [] ∧ j.link ∉ seen then j :: dedupLoop rest (j.link :: seen)
    else dedupLoop rest seen

/-- Written from the spec's words, for comparison with the code: the output
keeps, per distinct non-empty link, exactly the first occurrence of that
link, in first-occurrence order; listings with an empty link are dropped. -/
def firstOccurrences : List Job → List Job
  | [] => []
  | j :: rest =>
    if j.link = [] then firstOccurrences rest
    else j :: firstOccurrences (rest.filter (fun j2 => j2.link ≠ j.link))
termination_by l => l.length
decreasing_by
  all_goals simp_wf
  all_goals exact Nat.lt_succ_of_le (List.length_filter_le _ _)

/-- Concrete listings used by witnesses: two sharing a link, one with an
empty link. -/
def jobA : Job :=
  { title := "A".toList, company := [], link := "https://x/a".toList,
    salary := [], summary := [], source := [] }

def jobB : Job :=
  { title := "B".toList, company := [], link := "https://x/a".toList,
    salary := [], summary := [], source := [] }

def jobC : Job :=
  { title := "C".toList, company := [], link := [],
    salary := [], summary := [], source := [] }

/-- A parsed scoring verdict: the JSON object returned by the model, as a
dict whose keys may each be absent (analysis.get), modelled by Option
fields.  The prompt requests exactly these eight keys. -/
structure Assessment where
  fit_score : Option Int := none
  is_backend : Option Bool := none
  is_remote : Option Bool := none
  estimated_salary : Option (List Char) := none
  salary_in_range : Option Bool := none
  fit_summary : Option (List Char) := none
  key_match : Option (List Char) := none
  concern : Option (List Char) := none
  deriving DecidableEq

/-- Python truthiness of analysis.get(key) for a key expected to hold a
boolean: a missing key yields None (falsy), False is falsy, True is truthy. -/
def truthy (ob : Option Bool) : Bool := ob.getD false

/-- Sort key of the ranking step: analysis.get("fit_score", 0). -/
def fitKey (p : Job × Assessment) : Int := p.2.fit_score.getD 0

/-- Insertion of one pair into an already-built ranking, placing the new
pair before the first existing pair whose key does not exceed it.  Folded
from the right over the kept pairs (insertion sort), this reproduces the
unique output of Python's stable list.sort(key=fitKey, reverse=True):
descending by key, ties in incoming order. -/
def insertDesc (p : Job × Assessment) :
    List (Job × Assessment) → List (Job × Assessment)
  | [] => [p]
  | q :: rest => if fitKey q ≤ fitKey p then p :: q :: rest else q :: insertDesc p rest

/-- Model of scored.sort(key=lambda x: x[1].get("fit_score", 0), reverse=True)
(job_agent_2.py line 667 / job_agent.py line 418). -/
def sortDesc (l : List (Job × Assessment)) : List (Job × Assessment) :=
  l.foldr insertDesc []

/-- The admission loop of main (job_agent_2.py lines 656-664 /
job_agent.py lines 407-415) restricted to pairs that already carry an
assessment: the three `continue` guards, in source order. -/
def filterLoop : List (Job × Assessment) → List (Job × Assessment)
  | [] => []
  | (j, a) :: rest =>
    if truthy a.is_backend = false then filterLoop rest
    else if truthy a.is_remote = false then filterLoop rest
    else if a.fit_score.getD 0 < 5 then filterLoop rest
    else (j, a) :: filterLoop rest

/-- The admission rule as a predicate: kept iff is_backend truthy AND
is_remote truthy AND fit_score (default 0) at least 5. -/
def admitA (a : Assessment) : Bool :=
  truthy a.is_backend && truthy a.is_remote && decide (5 ≤ a.fit_score.getD 0)

/-- top_10 = scored[:10] after the sort: the final shortlist of the
filter/rank stage on scored pairs. -/
def shortlistOf (l : List (Job × Assessment)) : List (Job × Assessment) :=
  (sortDesc (filterLoop l)).take 10

/-- The full scoring loop of main, including the `if not analysis: continue`
guard: a pair whose scoring returned None is skipped outright.  (A scoring
call that returned an empty dict is also skipped by that guard in Python;
here an all-none Assessment reaches the field guards instead and is skipped
there, with identical observable output.) -/
def scoreFilterLoop : List (Job × Option Assessment) → List (Job × Assessment)
  | [] => []
  | (_, none) :: rest => scoreFilterLoop rest
  | (j, some a) :: rest =>
    if truthy a.is_backend = false then scoreFilterLoop rest
    else if truthy a.is_remote = false then scoreFilterLoop rest
    else if a.fit_score.getD 0 < 5 then scoreFilterLoop rest
    else (j, a) :: scoreFilterLoop rest

/-- Shortlist of the whole scoring-filter-rank stage, starting from pairs
whose assessments may be missing. -/
def mainShortlist (l : List (Job × Option Assessment)) : List (Job × Assessment) :=
  (sortDesc (scoreFilterLoop l)).take 10

/-- Listing with a given one-character title, for the ranking examples. -/
def exJob (c : Char) : Job :=
  { title := [c], company := [], link := [c], salary := [], summary := [],
    source := [] }

/-- Assessment with the given score and flags, remaining fields absent. -/
def exA (sc : Int) (bb rm : Bool) : Assessment :=
  { fit_score := some sc, is_backend := some bb, is_remote := some rm }

/-- The spec's filter/rank example: scores [9,7,5,4,8], the 4 failing
is_remote and the 5 failing is_backend. -/
def exPairs : List (Job × Assessment) :=
  [ (exJob '9', exA 9 true true), (exJob '7', exA 7 true true),
    (exJob '5', exA 5 false true), (exJob '4', exA 4 true false),
    (exJob '8', exA 8 true true) ]

/-- Character class [\d,] of the salary regex (ASCII digits; Python \d also
admits non-ASCII decimal digits, which no claim exercises). -/
def isDigitComma (c : Char) : Bool := c.isDigit || c = ','

/-- The optional trailing "k" unit of the salary regex, (?:k)?, under
re.IGNORECASE. -/
def matchOptK (s : List Char) : List Char :=
  match s with
  | c :: rest => if c.toLower = 'k' then rest else s
  | [] => s

/-- [\d,]+(?:k)? — at least one digit-or-comma, then the optional k;
returns the remainder, or none when the digit run is empty (the group
fails). -/
def matchNumTail (w : List Char) : Option (List Char) :=
  if (w.takeWhile isDigitComma).isEmpty then none
  else some (matchOptK (w.dropWhile isDigitComma))

/-- The optional range group (?:\s*[-–]\s*\$?[\d,]+(?:k)?)? of the salary
regex: either the whole group matches, or the input is returned unchanged.
Greedy matching without backtracking is exact for this pattern: no later
pattern element can start with a character that these greedy quantifiers
consumed (digits, commas, whitespace). -/
def matchRangeOpt (s : List Char) : List Char :=
  match s.dropWhile isSpc with
  | d :: u =>
    if d = '-' ∨ d = '–' then
      let v := u.dropWhile isSpc
      let w := match v with
               | c :: v2 => if c = '$' then v2 else v
               | [] => v
      match matchNumTail w with
      | some r => r
      | none => s
    else s
  | [] => s

/-- Case-insensitive literal test against the start of t (the regex
alternatives are ASCII literals under re.IGNORECASE). -/
def prefixCI (pat t : List Char) : Bool :=
  decide ((t.take pat.length).map Char.toLower = pat)

/-- The optional unit suffix (?:\s*(?:USD|/yr|/year|annually))? with the
alternatives tried in source order; when no alternative matches, the whole
group, including the whitespace run, is not consumed. -/
def matchSuffixOpt (s : List Char) : List Char :=
  let t := s.dropWhile isSpc
  if prefixCI "usd".toList t then t.drop 3
  else if prefixCI "/yr".toList t then t.drop 3
  else if prefixCI "/year".toList t then t.drop 5
  else if prefixCI "annually".toList t then t.drop 8
  else s

/-- One attempt of the whole salary pattern
\$[\d,]+(?:k)?(?:\s*[-–]\s*\$?[\d,]+(?:k)?)?(?:\s*(?:USD|/yr|/year|annually))?
at the start of s; some n means a match of length n. -/
def matchSalaryAt (s : List Char) : Option Nat :=
  match s with
  | c :: rest =>
    if c = '$' then
      match matchNumTail rest with
      | some r1 => some (s.length - (matchSuffixOpt (matchRangeOpt r1)).length)
      | none => none
    else none
  | [] => none

/-- re.search: try the pattern at every position, left to right; the first
position with a match wins; yields the matched substring. -/
def searchSalary : List Char → Option (List Char)
  | [] => none
  | c :: rest =>
    match matchSalaryAt (c :: rest) with
    | some n => some ((c :: rest).take n)
    | none => searchSalary rest

/-- extract_salary (job_agent_2.py lines 92-97; the identical regex is
inlined in scrape_board, job_agent.py lines 162-168): the first match,
stripped of surrounding whitespace, or the empty string when there is no
match. -/
def extract_salary (text : List Char) : List Char :=
  match searchSalary text with
  | some m => trimIf isSpc m
  | none => []

/-- An RSS entry as consumed by is_recent, with the stdlib date parsing
modelled as oracle results: published_parsed/updated_parsed are the
struct_time fields converted to epoch seconds (time.mktime); rawDate is
the result of email.utils.parsedate_to_datetime on the raw
published/updated string (none: string absent, empty, or unparsable — all
of which fall through in the source); summaryDate is the result of the
long-form month-name date regex plus strptime on the summary text (none:
no match or unparsable). -/
structure Entry where
  published_parsed : Option Int := none
  updated_parsed : Option Int := none
  rawDate : Option Int := none
  summaryDate : Option Int := none
  deriving DecidableEq

/-- entry.get("published_parsed") or entry.get("updated_parsed"). -/
def structuredTs (e : Entry) : Option Int :=
  match e.published_parsed with
  | some t => some t
  | none => e.updated_parsed

/-- is_recent (job_agent_2.py lines 112-149), with `now` the current time in
epoch seconds.  The structured path compares the exact fractional age
(time.time() - time.mktime(published)) / 86400 against days; the two
fallback paths use timedelta.days, i.e. floor division of the age in
seconds by 86400; when no date can be recovered at all, the entry is
admitted (fail-open). -/
def is_recent (now : Int) (entry : Entry) (days : Int) : Bool :=
  match structuredTs entry with
  | some ts => decide (((now - ts : Int) : ℚ) / 86400 ≤ (days : ℚ))
  | none =>
    match entry.rawDate with
    | some ts => decide ((now - ts).fdiv 86400 ≤ days)
    | none =>
      match entry.summaryDate with
      | some ts => decide ((now - ts).fdiv 86400 ≤ days)
      | none => true

/-- The noise denylist of fetch_job_detail (job_agent_2.py lines 434-440),
already lowercase in the source. -/
def noise_phrases : List (List Char) :=
  [ "learn the skills employers are hiring for".toList,
    "powered by learnisa".toList,
    "related jobs".toList,
    "sign in to apply".toList,
    "create an account".toList ]

/-- `any(phrase in text_lower for phrase in noise_phrases)` with
text_lower = text.lower(). -/
def hasNoise (text : List Char) : Bool :=
  noise_phrases.any (fun ph => decide (ph <:+: text.map Char.toLower))

/-- The candidate loop of fetch_job_detail (job_agent_2.py lines 444-458):
candidate element texts (already inner_text().strip()-ed) are tried in
strategy order — source-specific selectors before generic ones, document
order within a selector, flattened here into one sequence; a selector that
raised contributes no candidates.  A text shorter than 150 characters or
containing a noise phrase is skipped; the first surviving text, truncated
to 3000 characters, becomes the description and the loop returns. -/
def tryCandidates : List (List Char) → Job → Job
  | [], job => job
  | t :: rest, job =>
    if t.length < 150 then tryCandidates rest job
    else if hasNoise t then tryCandidates rest job
    else { job with description := some (t.take 3000) }

/-- `job.get("description") and len(job["description"]) > 200`: an absent or
short (or empty, hence falsy) description does not skip the fetch. -/
def hasLongDescription (job : Job) : Bool :=
  match job.description with
  | some d => decide (200 < d.length)
  | none => false

/-- fetch_job_detail (job_agent_2.py lines 379-462): skip when an RSS
description is already long enough or the link is empty; a navigation
failure (page.goto raising) leaves the listing unchanged; otherwise run the
candidate loop. -/
def fetch_job_detail (candidates : List (List Char)) (navFails : Bool)
    (job : Job) : Job :=
  if hasLongDescription job then job
  else if job.link = [] then job
  else if navFails then job
  else tryCandidates candidates job

/-- The acceptance rule of the candidate loop as a predicate: at least 150
characters and no denylisted noise phrase. -/
def acceptText (t : List Char) : Bool :=
  decide (150 ≤ t.length) && !hasNoise t

/-- The selector loop of the first version's fetch_job_detail
(job_agent.py lines 195-202): one element per selector (none when the
selector matched nothing), accepted as description iff its stripped text
exceeds 200 characters; no noise check in this version. -/
def v1Loop : List (Option (List Char)) → Job → Job
  | [], job => job
  | none :: rest, job => v1Loop rest job
  | some t :: rest, job =>
    if 200 < t.length then { job with description := some (t.take 3000) }
    else v1Loop rest job

/-- fetch_job_detail of job_agent.py (lines 187-205). -/
def fetch_job_detail_v1 (pageTexts : List (Option (List Char)))
    (navFails : Bool) (job : Job) : Job :=
  if job.link = [] then job
  else if navFails then job
  else v1Loop pageTexts job

/-- The backtick character, by code point. -/
def bq : Char := Char.ofNat 96

/-- The left curly brace, by code point. -/
def lbrace : Char := Char.ofNat 123

/-- The right curly brace, by code point. -/
def rbrace : Char := Char.ofNat 125

/-- A markdown code-fence marker: three backticks. -/
def fenceMarks : List Char := [bq, bq, bq]

/-- The optional lowercase tag of the fence pattern. -/
def jsonTag : List Char := ['j', 's', 'o', 'n']

/-- What one matched occurrence of the fence pattern consumes: the three
backticks and, greedily, a directly following lowercase json tag. -/
def dropFence (s : List Char) : List Char :=
  let r := s.drop 3
  if jsonTag.isPrefixOf r then r.drop 4 else r

/-- re.sub of the fence pattern with the empty string: scan left to right;
at a fence, remove the matched occurrence and continue after it; otherwise
keep the character and move on. -/
def removeFences : List Char → List Char
  | [] => []
  | c :: rest =>
    if fenceMarks.isPrefixOf (c :: rest) then removeFences (dropFence (c :: rest))
    else c :: removeFences rest
termination_by s => s.length
decreasing_by
  all_goals simp_wf
  all_goals simp only [dropFence, List.length_drop, List.length_cons]
  all_goals first
  | omega
  | (split <;> simp only [List.length_drop, List.length_cons] <;> omega)

/-- The membership test guarding the stripping: a fence marker occurs in
the text. -/
def hasFence (s : List Char) : Bool := decide (fenceMarks <:+: s)

/-- The text handed to json.loads by score_job_with_ollama
(job_agent_2.py lines 504-510 / job_agent.py lines 247-253): the response
text is stripped; when it contains a fence marker, all markers (each with
its optional json tag) are removed and the result is stripped of
whitespace and then of backticks. -/
def parserInput (response : List Char) : List Char :=
  if hasFence (trimIf isSpc response) then
    trimIf (fun c => c = bq) (trimIf isSpc (removeFences (trimIf isSpc response)))
  else trimIf isSpc response

/-- Outcome of the single requests.post call of the scoring client:
failure covers a network error, a timeout, and a non-JSON HTTP body
(response.json() raising inside the try). -/
inductive CallResult where
  | failure
  | success (raw : List Char)
  deriving DecidableEq

/-- score_job_with_ollama (job_agent_2.py lines 496-515 / job_agent.py
lines 239-258): issues exactly one POST, modelled by consuming the head of
the oracle list of call outcomes; `parse` models json.loads together with
the enclosing try (none: loads raised, the except caught it, and None is
returned).  Yields the assessment option and the remaining oracle. -/
def score_job_with_ollama (parse : List Char → Option Assessment) :
    List CallResult → Option Assessment × List CallResult
  | [] => (none, [])
  | CallResult.failure :: rest => (none, rest)
  | CallResult.success raw :: rest => (parse (parserInput raw), rest)

/-- A job board entry of JOB_BOARDS (job_agent.py lines 92-113). -/
structure Board where
  name : List Char
  url : List Char
  deriving DecidableEq

/-- A candidate card element of the generic scraper: its visible text and
the href of its first contained anchor (none when there is no anchor or no
href attribute; Python then uses ""). -/
structure Card where
  text : List Char
  href : Option (List Char)
  deriving DecidableEq

/-- Link resolution of scrape_board (job_agent.py lines 141-148): a missing
anchor yields ""; a relative link is prefixed with scheme + "//" + host
taken from the board url; when the url has fewer than three "/"-separated
parts the index access raises, which the per-card except turns into
skipping the card (none). -/
def resolveCardLink (url : List Char) (href : Option (List Char)) :
    Option (List Char) :=
  let link := href.getD []
  if link ≠ [] ∧ ¬ "http".toList.isPrefixOf link then
    let parts := List.splitOn '/' url
    if 3 ≤ parts.length then
      some ((parts.headI ++ "//".toList) ++ (parts.drop 2).headI ++ link)
    else none
  else some link

/-- `[l.strip() for l in text.split("\n") if l.strip()]`. -/
def linesOf (text : List Char) : List (List Char) :=
  ((List.splitOn '\n' text).map (trimIf isSpc)).filter (fun l => l ≠ [])

/-- The card loop of scrape_board (job_agent.py lines 132-178): text-length
gate, link resolution, first line (clipped to 120 characters) as title,
dedup by title with a minimum length of 5, salary regex over the card
text, following lines as summary. -/
def boardLoop (b : Board) : List Card → List (List Char) → List Job
  | [], _ => []
  | card :: rest, seen =>
    let text := trimIf isSpc card.text
    if text.length < 10 ∨ 2000 < text.length then boardLoop b rest seen
    else
      match resolveCardLink b.url card.href with
      | none => boardLoop b rest seen
      | some link =>
        match linesOf text with
        | [] => boardLoop b rest seen
        | l0 :: ltail =>
          let title := l0.take 120
          if title ∈ seen ∨ title.length < 5 then boardLoop b rest seen
          else
            { title := title, company := [], link := link,
              salary := extract_salary text,
              summary := joinSep " | ".toList (ltail.take 5),
              source := b.name } :: boardLoop b rest (title :: seen)

/-- scrape_board (job_agent.py lines 118-184): at most the first 60 cards
are examined; titles already seen are skipped. -/
def scrape_board (b : Board) (cards : List Card) : List Job :=
  boardLoop b (cards.take 60) []

/-- A Himalayas job card: the href of the <a> element and its visible
text. -/
structure HItem where
  href : List Char
  text : List Char
  deriving DecidableEq

/-- make_absolute (job_agent_2.py lines 100-106). -/
def make_absolute (href base : List Char) : List Char :=
  if href = [] then []
  else if "http".toList.isPrefixOf href then href
  else joinSep ['/'] ((List.splitOn '/' base).take 3) ++ href

/-- The listing-page url of the Himalayas adapter. -/
def himalayasURL : List Char := "https://himalayas.app/jobs/engineering".toList

/-- The item loop of scrape_himalayas (job_agent_2.py lines 266-295):
href-shape gate (at least two "/"-separated parts after stripping
slashes), dedup by href — not by title — then first line as title, second
as company, salary regex over the item text. -/
def himalayasLoop : List HItem → List (List Char) → List Job
  | [], _ => []
  | it :: rest, seen =>
    if (List.splitOn '/' (trimIf (fun c => c = '/') it.href)).length < 2 then
      himalayasLoop rest seen
    else if it.href ∈ seen then himalayasLoop rest seen
    else
      let tc := trimIf isSpc it.text
      match linesOf tc with
      | [] => himalayasLoop rest (it.href :: seen)
      | l0 :: ltail =>
        { title := l0, company := ltail.headI,
          link := make_absolute it.href himalayasURL,
          salary := extract_salary tc,
          summary := joinSep " | ".toList (((l0 :: ltail).drop 2).take 3),
          source := "Himalayas".toList } :: himalayasLoop rest (it.href :: seen)

/-- scrape_himalayas (job_agent_2.py lines 251-301) applied to the job
cards found on the page. -/
def scrape_himalayas (items : List HItem) : List Job :=
  himalayasLoop items []

/-- Two Himalayas cards with distinct hrefs but the same first text line. -/
def hItemA : HItem :=
  { href := "/jobs/acme/engineer".toList,
    text := ("Backend Engineer" ++ "\n" ++ "Acme").toList }

def hItemB : HItem :=
  { href := "/jobs/beta/engineer".toList,
    text := ("Backend Engineer" ++ "\n" ++ "Beta").toList }

/-- Concrete generic-scraper inputs for witnesses. -/
def boardEx : Board := { name := "Indeed".toList, url := "https://b.example/jobs".toList }

def cardEx : Card := { text := "Senior Dev".toList, href := none }

/-- The listing the generic scraper builds from cardEx. -/
def jobEx : Job :=
  { title := "Senior Dev".toList, company := [], link := [], salary := [],
    summary := [], source := "Indeed".toList }

theorem foldl_dedupStep (jobs : List Job) :
    ∀ seen acc, (jobs.foldl dedupStep (seen, acc)).2 = acc ++ dedupLoop jobs seen := by
  induction jobs with
  | nil => intro seen acc; simp [dedupLoop]
  | cons j rest ih =>
    intro seen acc
    by_cases h : j.link ≠ [] ∧ j.link ∉ seen
    · simp only [List.foldl_cons, dedupStep, dedupLoop, if_pos h, ih]
      simp
    · simp only [List.foldl_cons, dedupStep, dedupLoop, if_neg h, ih]

theorem dedupLoop_eq_firstOccurrences (jobs : List Job) :
    ∀ seen, dedupLoop jobs seen =
      firstOccurrences (jobs.filter (fun j => decide (j.link ∉ seen))) := by
  induction jobs with
  | nil => intro seen; simp [dedupLoop, firstOccurrences]
  | cons j rest ih =>
    intro seen
    by_cases hs : j.link ∈ seen
    · have hcond : ¬ (j.link ≠ [] ∧ j.link ∉ seen) := by tauto
      have hd : decide (j.link ∉ seen) = false := by simp [hs]
      simp only [dedupLoop, if_neg hcond, List.filter_cons, hd, Bool.false_eq_true,
        if_false]
      exact ih seen
    · have hd : decide (j.link ∉ seen) = true := by simp [hs]
      by_cases hl : j.link = []
      · have hcond : ¬ (j.link ≠ [] ∧ j.link ∉ seen) := by tauto
        simp only [dedupLoop, if_neg hcond, List.filter_cons, hd, if_true]
        rw [firstOccurrences, if_pos hl]
        exact ih seen
      · have hcond : j.link ≠ [] ∧ j.link ∉ seen := ⟨hl, hs⟩
        simp only [dedupLoop, if_pos hcond, List.filter_cons, hd, if_true]
        rw [firstOccurrences, if_neg hl, ih (j.link :: seen), List.filter_filter]
        have hfe : List.filter (fun j2 => decide (j2.link ∉ j.link :: seen)) rest =
            List.filter (fun a => decide (a.link ≠ j.link) && decide (a.link ∉ seen)) rest := by
          apply List.filter_congr
          intro a _
          by_cases h1 : a.link = j.link <;> by_cases h2 : a.link ∈ seen <;>
            simp [h1, h2]
        rw [hfe]

theorem dedupLoop_sublist (jobs : List Job) :
    ∀ seen, (dedupLoop jobs seen).Sublist jobs := by
  induction jobs with
  | nil => intro seen; simp [dedupLoop]
  | cons j rest ih =>
    intro seen
    by_cases h : j.link ≠ [] ∧ j.link ∉ seen
    · simpa only [dedupLoop, if_pos h] using (ih (j.link :: seen)).cons₂ j
    · simpa only [dedupLoop, if_neg h] using (ih seen).cons j

theorem dedupLoop_links (jobs : List Job) :
    ∀ seen, (∀ j ∈ dedupLoop jobs seen, j.link ≠ [] ∧ j.link ∉ seen)
      ∧ ((dedupLoop jobs seen).map Job.link).Nodup := by
  induction jobs with
  | nil => intro seen; simp [dedupLoop]
  | cons j rest ih =>
    intro seen
    by_cases h : j.link ≠ [] ∧ j.link ∉ seen
    · simp only [dedupLoop, if_pos h]
      obtain ⟨ihmem, ihnd⟩ := ih (j.link :: seen)
      constructor
      · intro j2 hj2
        rcases List.mem_cons.1 hj2 with rfl | hj2
        · exact h
        · obtain ⟨hne, hns⟩ := ihmem j2 hj2
          exact ⟨hne, fun hc => hns (List.mem_cons_of_mem _ hc)⟩
      · simp only [List.map_cons, List.nodup_cons]
        refine ⟨?_, ihnd⟩
        intro hinmap
        obtain ⟨j2, hj2, hlink⟩ := List.mem_map.1 hinmap
        exact (ihmem j2 hj2).2 (by rw [hlink]; exact List.mem_cons_self _ _)
    · simp only [dedupLoop, if_neg h]
      obtain ⟨ihmem, ihnd⟩ := ih seen
      exact ⟨ihmem, ihnd⟩

/-- C1: the normalizer keeps, for every distinct non-empty link in the merged
adapter output, exactly the first listing carrying that link (this is what
equality with firstOccurrences says, together with the Nodup of the output
links); listings with an empty link are dropped; and the kept listings
appear in the order of their first occurrences (the output is a sublist of
the input consisting of first occurrences). -/
theorem normalizer_dedup_spec (jobs : List Job) :
    scrape_all_boards_dedup jobs = firstOccurrences jobs
    ∧ (scrape_all_boards_dedup jobs).Sublist jobs
    ∧ ((scrape_all_boards_dedup jobs).map Job.link).Nodup
    ∧ ∀ j ∈ scrape_all_boards_dedup jobs, j.link ≠ [] := by
  have hbase : scrape_all_boards_dedup jobs = dedupLoop jobs [] := by
    show (jobs.foldl dedupStep ([], [])).2 = _
    rw [foldl_dedupStep jobs [] []]
    simp
  refine ⟨?_, ?_, ?_, ?_⟩
  · rw [hbase, dedupLoop_eq_firstOccurrences jobs []]
    congr 1
    have : List.filter (fun j => decide (j.link ∉ ([] : List (List Char)))) jobs =
        List.filter (fun _ => true) jobs := by
      apply List.filter_congr
      intro a _
      simp
    rw [this, List.filter_true]
  · rw [hbase]; exact dedupLoop_sublist jobs []
  · rw [hbase]; exact (dedupLoop_links jobs []).2
  · rw [hbase]
    intro j hj
    exact ((dedupLoop_links jobs []).1 j hj).1

/-- C1 witness: on a concrete merged list with a duplicated link and an
empty-link listing, the first listing survives and has a non-empty link. -/
theorem normalizer_dedup_spec_witness :
    jobA ∈ scrape_all_boards_dedup [jobA, jobB, jobC] ∧ jobA.link ≠ [] :=
  ⟨by decide, (normalizer_dedup_spec [jobA, jobB, jobC]).2.2.2 jobA (by decide)⟩

theorem insertDesc_perm (p : Job × Assessment) (l : List (Job × Assessment)) :
    (insertDesc p l).Perm (p :: l) := by
  induction l with
  | nil => exact List.Perm.refl _
  | cons q rest ih =>
    by_cases h : fitKey q ≤ fitKey p
    · simp only [insertDesc, if_pos h]
      exact List.Perm.refl _
    · simp only [insertDesc, if_neg h]
      exact (ih.cons q).trans (List.Perm.swap p q rest)

theorem sortDesc_perm (l : List (Job × Assessment)) : (sortDesc l).Perm l := by
  induction l with
  | nil => exact List.Perm.refl _
  | cons x xs ih =>
    exact (insertDesc_perm x (sortDesc xs)).trans (ih.cons x)

theorem insertDesc_pairwise (p : Job × Assessment) (l : List (Job × Assessment))
    (h : l.Pairwise (fun a b => fitKey b ≤ fitKey a)) :
    (insertDesc p l).Pairwise (fun a b => fitKey b ≤ fitKey a) := by
  induction l with
  | nil => simp [insertDesc]
  | cons q rest ih =>
    obtain ⟨hq, hrest⟩ := List.pairwise_cons.1 h
    by_cases hle : fitKey q ≤ fitKey p
    · simp only [insertDesc, if_pos hle]
      refine List.pairwise_cons.2 ⟨?_, h⟩
      intro x hx
      rcases List.mem_cons.1 hx with rfl | hx
      · exact hle
      · exact le_trans (hq x hx) hle
    · simp only [insertDesc, if_neg hle]
      refine List.pairwise_cons.2 ⟨?_, ih hrest⟩
      intro x hx
      have hx2 : x ∈ p :: rest := (insertDesc_perm p rest).mem_iff.1 hx
      rcases List.mem_cons.1 hx2 with rfl | hx2
      · exact le_of_lt (lt_of_not_le hle)
      · exact hq x hx2

theorem sortDesc_pairwise (l : List (Job × Assessment)) :
    (sortDesc l).Pairwise (fun a b => fitKey b ≤ fitKey a) := by
  induction l with
  | nil => simp [sortDesc]
  | cons x xs ih => exact insertDesc_pairwise x (sortDesc xs) ih

theorem insertDesc_filter_ne (p : Job × Assessment) (k : Int)
    (h : fitKey p ≠ k) (l : List (Job × Assessment)) :
    (insertDesc p l).filter (fun q => decide (fitKey q = k)) =
      l.filter (fun q => decide (fitKey q = k)) := by
  induction l with
  | nil => simp [insertDesc, h]
  | cons q rest ih =>
    by_cases hle : fitKey q ≤ fitKey p
    · simp only [insertDesc, if_pos hle, List.filter_cons]
      simp [h]
    · simp only [insertDesc, if_neg hle, List.filter_cons, ih]

theorem insertDesc_filter_eq (p : Job × Assessment) (k : Int)
    (h : fitKey p = k) (l : List (Job × Assessment)) :
    (insertDesc p l).filter (fun q => decide (fitKey q = k)) =
      p :: l.filter (fun q => decide (fitKey q = k)) := by
  induction l with
  | nil => simp [insertDesc, h]
  | cons q rest ih =>
    by_cases hle : fitKey q ≤ fitKey p
    · simp only [insertDesc, if_pos hle, List.filter_cons]
      simp [h]
    · have hqk : fitKey q ≠ k := by
        intro hq
        exact hle (by rw [hq, ← h])
      simp only [insertDesc, if_neg hle, List.filter_cons, ih]
      simp [hqk]

theorem sortDesc_filter (k : Int) (l : List (Job × Assessment)) :
    (sortDesc l).filter (fun q => decide (fitKey q = k)) =
      l.filter (fun q => decide (fitKey q = k)) := by
  induction l with
  | nil => rfl
  | cons x xs ih =>
    show (insertDesc x (sortDesc xs)).filter _ = _
    by_cases hx : fitKey x = k
    · rw [insertDesc_filter_eq x k hx (sortDesc xs), ih, List.filter_cons]
      simp [hx]
    · rw [insertDesc_filter_ne x k hx (sortDesc xs), ih, List.filter_cons]
      simp [hx]

theorem filterLoop_eq_filter (l : List (Job × Assessment)) :
    filterLoop l = l.filter (fun p => admitA p.2) := by
  induction l with
  | nil => rfl
  | cons p rest ih =>
    obtain ⟨j, a⟩ := p
    by_cases h1 : truthy a.is_backend = false
    · simp [filterLoop, h1, admitA, List.filter_cons, ih]
    · have h1t : truthy a.is_backend = true := by
        cases hx : truthy a.is_backend
        · exact absurd hx h1
        · rfl
      by_cases h2 : truthy a.is_remote = false
      · simp [filterLoop, h1, h2, admitA, h1t, List.filter_cons, ih]
      · have h2t : truthy a.is_remote = true := by
          cases hx : truthy a.is_remote
          · exact absurd hx h2
          · rfl
        by_cases h3 : a.fit_score.getD 0 < 5
        · have hd : decide (5 ≤ a.fit_score.getD 0) = false := by
            simp only [decide_eq_false_iff_not]
            omega
          simp [filterLoop, h1, h2, h3, admitA, h1t, h2t, hd, List.filter_cons, ih]
        · have hd : decide (5 ≤ a.fit_score.getD 0) = true := by
            simp only [decide_eq_true_eq]
            omega
          simp [filterLoop, h1, h2, h3, admitA, h1t, h2t, hd, List.filter_cons, ih]

theorem mem_scoreFilterLoop (l : List (Job × Option Assessment)) :
    ∀ p ∈ scoreFilterLoop l, admitA p.2 = true := by
  induction l with
  | nil => intro p hp; cases hp
  | cons x rest ih =>
    obtain ⟨j, oa⟩ := x
    cases oa with
    | none => exact ih
    | some a =>
      intro p hp
      by_cases h1 : truthy a.is_backend = false
      · exact ih p (by simpa [scoreFilterLoop, h1] using hp)
      · by_cases h2 : truthy a.is_remote = false
        · exact ih p (by simpa [scoreFilterLoop, h1, h2] using hp)
        · by_cases h3 : a.fit_score.getD 0 < 5
          · exact ih p (by simpa [scoreFilterLoop, h1, h2, h3] using hp)
          · have hp2 : p = (j, a) ∨ p ∈ scoreFilterLoop rest := by
              simpa [scoreFilterLoop, h1, h2, h3] using hp
            rcases hp2 with rfl | hp2
            · have h1t : truthy a.is_backend = true := by
                cases hx : truthy a.is_backend
                · exact absurd hx h1
                · rfl
              have h2t : truthy a.is_remote = true := by
                cases hx : truthy a.is_remote
                · exact absurd hx h2
                · rfl
              have hd : decide (5 ≤ a.fit_score.getD 0) = true := by
                simp only [decide_eq_true_eq]
                omega
              simp [admitA, h1t, h2t, hd]
            · exact ih p hp2

/-- C2 counterexample: on the spec's own example — scores [9,7,5,4,8] with
the 4 failing is_remote and the 5 failing is_backend — the output is NOT
just the score-9 pair followed by the score-8 pair: the score-7 pair passes
every admission check as well, so the shortlist has three pairs. -/
theorem filter_rank_example_cex :
    shortlistOf exPairs ≠
      [(exJob '9', exA 9 true true), (exJob '8', exA 8 true true)] := by
  decide

/-- C2 (amended): a pair is kept iff is_backend is truthy AND is_remote is
truthy AND fit_score >= 5 (filterLoop equals the filter by admitA); the
shortlist is sorted by fit_score descending; the sort is stable (for every
score value, the pairs carrying that score appear in the sorted sequence in
exactly their incoming order); the result is the first 10 pairs of the
sorted sequence; and on the spec's example the output is the score-9,
score-8 and score-7 pairs in that order (the score-7 pair also passes all
filters, contrary to the spec's asserted [9,8]). -/
theorem filter_rank_amended (pairs : List (Job × Assessment)) :
    filterLoop pairs = pairs.filter (fun p => admitA p.2)
    ∧ shortlistOf pairs = (sortDesc (filterLoop pairs)).take 10
    ∧ (shortlistOf pairs).Pairwise (fun p q => fitKey q ≤ fitKey p)
    ∧ (∀ k : Int, (sortDesc (filterLoop pairs)).filter (fun q => decide (fitKey q = k))
        = (filterLoop pairs).filter (fun q => decide (fitKey q = k)))
    ∧ shortlistOf exPairs =
        [(exJob '9', exA 9 true true), (exJob '8', exA 8 true true),
         (exJob '7', exA 7 true true)] := by
  refine ⟨filterLoop_eq_filter pairs, rfl, ?_, ?_, ?_⟩
  · exact (sortDesc_pairwise (filterLoop pairs)).sublist
      (List.take_sublist 10 _) |>.imp (fun h => h) |>.imp id
  · intro k
    exact sortDesc_filter k (filterLoop pairs)
  · decide

/-- C10: the filter stage totally handles incomplete assessments — an
assessment whose is_backend (resp. is_remote) key is missing or falsy is
rejected by the corresponding guard; one whose fit_score key is missing is
likewise rejected (get("fit_score", 0) = 0 < 5); consequently every pair on
the final shortlist carries is_backend = true, is_remote = true and an
actually-present fit_score of at least 5, so an incomplete assessment can
never place a listing on the shortlist. -/
theorem incomplete_assessment_rejected :
    (∀ (j : Job) (a : Assessment) rest, truthy a.is_backend = false →
        scoreFilterLoop ((j, some a) :: rest) = scoreFilterLoop rest)
    ∧ (∀ (j : Job) (a : Assessment) rest, truthy a.is_remote = false →
        scoreFilterLoop ((j, some a) :: rest) = scoreFilterLoop rest)
    ∧ (∀ (j : Job) (a : Assessment) rest, a.fit_score = none →
        scoreFilterLoop ((j, some a) :: rest) = scoreFilterLoop rest)
    ∧ (∀ l, ∀ p ∈ mainShortlist l,
        p.2.is_backend = some true ∧ p.2.is_remote = some true ∧
          ∃ s, p.2.fit_score = some s ∧ 5 ≤ s) := by
  refine ⟨?_, ?_, ?_, ?_⟩
  · intro j a rest h
    simp [scoreFilterLoop, h]
  · intro j a rest h
    by_cases h1 : truthy a.is_backend = false
    · simp [scoreFilterLoop, h1]
    · simp [scoreFilterLoop, h1, h]
  · intro j a rest h
    by_cases h1 : truthy a.is_backend = false
    · simp [scoreFilterLoop, h1]
    · by_cases h2 : truthy a.is_remote = false
      · simp [scoreFilterLoop, h1, h2]
      · have : a.fit_score.getD 0 < 5 := by
          rw [h]
          decide
        simp [scoreFilterLoop, h1, h2, this]
  · intro l p hp
    have hp1 : p ∈ sortDesc (scoreFilterLoop l) := List.take_subset 10 _ hp
    have hp2 : p ∈ scoreFilterLoop l := (sortDesc_perm _).subset hp1
    have hadmit : admitA p.2 = true := mem_scoreFilterLoop l p hp2
    have h3 : (truthy p.2.is_backend = true ∧ truthy p.2.is_remote = true) ∧
        5 ≤ p.2.fit_score.getD 0 := by
      simpa [admitA, Bool.and_eq_true] using hadmit
    obtain ⟨⟨hb, hr⟩, hf0⟩ := h3
    have hf : decide (5 ≤ p.2.fit_score.getD 0) = true := decide_eq_true hf0
    refine ⟨?_, ?_, ?_⟩
    · cases hob : p.2.is_backend with
      | none => rw [hob] at hb; exact absurd hb (by simp [truthy])
      | some b =>
        rw [hob] at hb
        simp only [truthy, Option.getD_some] at hb
        rw [hb]
    · cases hor : p.2.is_remote with
      | none => rw [hor] at hr; exact absurd hr (by simp [truthy])
      | some b =>
        rw [hor] at hr
        simp only [truthy, Option.getD_some] at hr
        rw [hr]
    · cases hof : p.2.fit_score with
      | none =>
        rw [hof] at hf
        exact absurd hf (by decide)
      | some s =>
        rw [hof] at hf
        simp only [Option.getD_some, decide_eq_true_eq] at hf
        exact ⟨s, rfl, hf⟩

/-- C10 witness: a concrete complete assessment that does reach the
shortlist indeed has both flags present-and-true and a present score of at
least 5. -/
theorem incomplete_assessment_rejected_witness :
    (exA 9 true true).is_backend = some true ∧
      (exA 9 true true).is_remote = some true ∧
      ∃ s, (exA 9 true true).fit_score = some s ∧ 5 ≤ s :=
  incomplete_assessment_rejected.2.2.2 [(exJob '9', some (exA 9 true true))]
    (exJob '9', exA 9 true true) (by decide)

theorem searchSalary_none_of_all_none (s : List Char)
    (h : ∀ i, matchSalaryAt (s.drop i) = none) : searchSalary s = none := by
  induction s with
  | nil => rfl
  | cons c rest ih =>
    have h0 := h 0
    simp only [List.drop_zero] at h0
    simp only [searchSalary, h0]
    exact ih (fun i => by simpa using h (i + 1))

theorem searchSalary_first (i : Nat) :
    ∀ (s : List Char) (n : Nat), matchSalaryAt (s.drop i) = some n →
      (∀ j, j < i → matchSalaryAt (s.drop j) = none) →
      searchSalary s = some ((s.drop i).take n) := by
  induction i with
  | zero =>
    intro s n hm _
    simp only [List.drop_zero] at hm ⊢
    cases s with
    | nil => simp [matchSalaryAt] at hm
    | cons c rest => simp [searchSalary, hm]
  | succ i ih =>
    intro s n hm hnone
    cases s with
    | nil => simp [matchSalaryAt] at hm
    | cons c rest =>
      have h0 := hnone 0 (Nat.succ_pos i)
      simp only [List.drop_zero] at h0
      simp only [searchSalary, h0]
      have := ih rest n (by simpa using hm)
        (fun j hj => by simpa using hnone (j + 1) (Nat.succ_lt_succ hj))
      simpa using this

/-- C3: salary extraction returns the leftmost, greedily-matched occurrence
of the salary pattern (matchSalaryAt is the pattern: dollar sign, digit run
with comma separators, optional k, optional dash-joined upper bound of the
same shape, optional case-insensitive unit suffix) and the empty string
when the pattern occurs nowhere; in particular a string with no dollar sign
cannot match, and "$90,000 - $110,000/year" is returned whole. -/
theorem salary_extraction_spec :
    extract_salary "$90,000 - $110,000/year".toList
        = "$90,000 - $110,000/year".toList
    ∧ (∀ s : List Char, '$' ∉ s → extract_salary s = [])
    ∧ (∀ s : List Char, (∀ i, matchSalaryAt (s.drop i) = none) →
        extract_salary s = [])
    ∧ (∀ (s : List Char) (i n : Nat), matchSalaryAt (s.drop i) = some n →
        (∀ j, j < i → matchSalaryAt (s.drop j) = none) →
        extract_salary s = trimIf isSpc ((s.drop i).take n)) := by
  refine ⟨by decide, ?_, ?_, ?_⟩
  · intro s hd
    have hall : ∀ i, matchSalaryAt (s.drop i) = none := by
      intro i
      cases hsd : s.drop i with
      | nil => simp [matchSalaryAt]
      | cons c rest =>
        have hc : c ≠ '$' := by
          intro hc
          apply hd
          have : c ∈ s.drop i := by rw [hsd]; exact List.mem_cons_self _ _
          rw [hc] at this
          exact List.mem_of_mem_drop this
        simp [matchSalaryAt, hc]
    simp only [extract_salary, searchSalary_none_of_all_none s hall]
  · intro s hall
    simp only [extract_salary, searchSalary_none_of_all_none s hall]
  · intro s i n hm hnone
    simp only [extract_salary, searchSalary_first i s n hm hnone]

/-- C3 witness: a concrete string without a dollar sign yields the empty
string, via the no-dollar-sign part of the theorem. -/
theorem salary_extraction_spec_witness :
    extract_salary "competitive pay, fully remote".toList = [] :=
  salary_extraction_spec.2.1 "competitive pay, fully remote".toList (by decide)

/-- C4: an entry whose parsed timestamp makes it exactly `days` days old is
admitted, both on the structured-fields path and on the raw-string
fallback path; an entry one day older than `days` is rejected on both
paths; and an entry on which every date-recovery step failed is admitted
(fail-open). -/
theorem recency_boundary_and_fail_open (now ts days : Int) :
    (now - ts = days * 86400 →
      is_recent now { published_parsed := some ts } days = true)
    ∧ (now - ts = (days + 1) * 86400 →
      is_recent now { published_parsed := some ts } days = false)
    ∧ (now - ts = days * 86400 →
      is_recent now { rawDate := some ts } days = true)
    ∧ (now - ts = (days + 1) * 86400 →
      is_recent now { rawDate := some ts } days = false)
    ∧ is_recent now {} days = true := by
  have h86 : (86400 : ℚ) ≠ 0 := by norm_num
  refine ⟨?_, ?_, ?_, ?_, rfl⟩
  · intro h
    show decide (((now - ts : Int) : ℚ) / 86400 ≤ (days : ℚ)) = true
    apply decide_eq_true
    have h2 : ((now - ts : Int) : ℚ) = (days : ℚ) * 86400 := by
      rw [h]; push_cast; ring
    rw [h2, mul_div_cancel_right₀ _ h86]
  · intro h
    show decide (((now - ts : Int) : ℚ) / 86400 ≤ (days : ℚ)) = false
    apply decide_eq_false
    have h2 : ((now - ts : Int) : ℚ) = ((days : ℚ) + 1) * 86400 := by
      rw [h]; push_cast; ring
    rw [h2, mul_div_cancel_right₀ _ h86]
    intro hle
    linarith
  · intro h
    show decide ((now - ts).fdiv 86400 ≤ days) = true
    apply decide_eq_true
    rw [h, Int.mul_fdiv_cancel days (by norm_num)]
  · intro h
    show decide ((now - ts).fdiv 86400 ≤ days) = false
    apply decide_eq_false
    rw [h, Int.mul_fdiv_cancel (days + 1) (by norm_num)]
    omega

/-- C4 witness: with now = 2592000 s, a structured timestamp of 0 is exactly
30 days old and admitted; a raw-string timestamp putting the entry 31 days
old is rejected; a fully unparsable entry is admitted. -/
theorem recency_boundary_and_fail_open_witness :
    is_recent 2592000 { published_parsed := some 0 } 30 = true
    ∧ is_recent 2678400 { rawDate := some 0 } 30 = false
    ∧ is_recent 2592000 {} 30 = true :=
  ⟨(recency_boundary_and_fail_open 2592000 0 30).1 (by decide),
   (recency_boundary_and_fail_open 2678400 0 30).2.2.2.1 (by decide),
   (recency_boundary_and_fail_open 2592000 0 30).2.2.2.2⟩

theorem tryCandidates_eq_find (cands : List (List Char)) (job : Job) :
    tryCandidates cands job =
      match cands.find? acceptText with
      | some t => { job with description := some (t.take 3000) }
      | none => job := by
  induction cands with
  | nil => rfl
  | cons t rest ih =>
    by_cases h1 : t.length < 150
    · have ha : ¬ acceptText t = true := by
        have : decide (150 ≤ t.length) = false := by
          simp only [decide_eq_false_iff_not]
          omega
        simp [acceptText, this]
      simp only [tryCandidates, if_pos h1, List.find?_cons_of_neg _ ha]
      exact ih
    · by_cases h2 : hasNoise t = true
      · have ha : ¬ acceptText t = true := by simp [acceptText, h2]
        simp only [tryCandidates, if_neg h1, if_pos h2, List.find?_cons_of_neg _ ha]
        exact ih
      · have ha : acceptText t = true := by
          have hlen : decide (150 ≤ t.length) = true := by
            simp only [decide_eq_true_eq]
            omega
          simp only [acceptText, hlen, Bool.true_and, Bool.not_eq_true']
          exact Bool.not_eq_true _ ▸ (by simpa using h2)
        simp only [tryCandidates, if_neg h1]
        rw [if_neg (by simpa using h2), List.find?_cons_of_pos _ ha]

/-- C5: a candidate text is accepted iff it has at least 150 characters and
contains no denylisted noise substring (case-insensitively) — the loop
returns the listing with its description set to the first such candidate
truncated to 3000 characters, and leaves the listing (hence its prior
summary/description) unchanged when no candidate is accepted; a noisy
candidate is rejected no matter its length, and the loop then moves to the
next candidate in strategy order. -/
theorem detail_extraction_acceptance (cands : List (List Char)) (job : Job) :
    (tryCandidates cands job =
      match cands.find? acceptText with
      | some t => { job with description := some (t.take 3000) }
      | none => job)
    ∧ (∀ t : List Char, hasNoise t = true → acceptText t = false)
    ∧ (∀ (t : List Char) rest, hasNoise t = true →
        tryCandidates (t :: rest) job = tryCandidates rest job)
    ∧ ((∀ t ∈ cands, acceptText t = false) → tryCandidates cands job = job) := by
  refine ⟨tryCandidates_eq_find cands job, ?_, ?_, ?_⟩
  · intro t h
    simp [acceptText, h]
  · intro t rest h
    by_cases h1 : t.length < 150
    · simp [tryCandidates, h1]
    · simp [tryCandidates, h1, h]
  · intro hnone
    rw [tryCandidates_eq_find cands job]
    have : cands.find? acceptText = none :=
      List.find?_eq_none.2 (fun x hx => by simp [hnone x hx])
    rw [this]

set_option maxRecDepth 8192 in
/-- C5 witness: a 162-character candidate containing the denylisted phrase
"Related Jobs" (checked case-insensitively) is rejected despite exceeding
the length threshold, so the loop falls through to the remaining candidates
— here none, leaving the listing unchanged. -/
theorem detail_extraction_acceptance_witness :
    tryCandidates [List.replicate 150 'x' ++ "Related Jobs".toList] jobA = jobA :=
  (detail_extraction_acceptance [] jobA).2.2.1
    (List.replicate 150 'x' ++ "Related Jobs".toList) [] (by decide)

theorem tryCandidates_frame (cands : List (List Char)) (job : Job) :
    ∃ od, tryCandidates cands job = { job with description := od } := by
  induction cands with
  | nil => exact ⟨job.description, rfl⟩
  | cons t rest ih =>
    by_cases h1 : t.length < 150
    · simpa [tryCandidates, h1] using ih
    · by_cases h2 : hasNoise t = true
      · simpa [tryCandidates, h1, h2] using ih
      · exact ⟨some (t.take 3000), by simp [tryCandidates, h1, h2]⟩

theorem v1Loop_frame (texts : List (Option (List Char))) (job : Job) :
    ∃ od, v1Loop texts job = { job with description := od } := by
  induction texts with
  | nil => exact ⟨job.description, rfl⟩
  | cons ot rest ih =>
    cases ot with
    | none => simpa [v1Loop] using ih
    | some t =>
      by_cases h : 200 < t.length
      · exact ⟨some (t.take 3000), by simp [v1Loop, h]⟩
      · simpa [v1Loop, h] using ih

/-- C8: the detail fetcher mutates at most the description field — whether
the fetch is skipped, fails, or succeeds, the title, company, link, salary,
summary and source of the listing are unchanged; this holds for the
fetch_job_detail of job_agent_2.py and for the one of job_agent.py. -/
theorem detail_fetch_frame (cands : List (List Char))
    (texts : List (Option (List Char))) (nav : Bool) (job : Job) :
    ((fetch_job_detail cands nav job).title = job.title
      ∧ (fetch_job_detail cands nav job).company = job.company
      ∧ (fetch_job_detail cands nav job).link = job.link
      ∧ (fetch_job_detail cands nav job).salary = job.salary
      ∧ (fetch_job_detail cands nav job).summary = job.summary
      ∧ (fetch_job_detail cands nav job).source = job.source)
    ∧ ((fetch_job_detail_v1 texts nav job).title = job.title
      ∧ (fetch_job_detail_v1 texts nav job).company = job.company
      ∧ (fetch_job_detail_v1 texts nav job).link = job.link
      ∧ (fetch_job_detail_v1 texts nav job).salary = job.salary
      ∧ (fetch_job_detail_v1 texts nav job).summary = job.summary
      ∧ (fetch_job_detail_v1 texts nav job).source = job.source) := by
  obtain ⟨od, hod⟩ := tryCandidates_frame cands job
  obtain ⟨od1, hod1⟩ := v1Loop_frame texts job
  constructor
  · unfold fetch_job_detail
    split_ifs <;> simp [hod]
  · unfold fetch_job_detail_v1
    split_ifs <;> simp [hod1]

theorem trimIf_eq_self {p : Char → Bool} {s : List Char}
    (h1 : ∀ c, s.head? = some c → p c = false)
    (h2 : ∀ c, s.getLast? = some c → p c = false) : trimIf p s = s := by
  have hd : s.dropWhile p = s := by
    cases s with
    | nil => rfl
    | cons c t =>
      rw [List.dropWhile_cons, if_neg]
      simp [h1 c rfl]
  unfold trimIf
  rw [hd, List.rdropWhile_eq_self_iff]
  intro hl
  simp [h2 (s.getLast hl) (List.getLast?_eq_getLast s hl)]

theorem dropWhile_append_all {p : Char → Bool} (pre r : List Char)
    (h : ∀ c ∈ pre, p c = true) :
    (pre ++ r).dropWhile p = r.dropWhile p := by
  induction pre with
  | nil => rfl
  | cons c t ih =>
    rw [List.cons_append, List.dropWhile_cons, if_pos (h c (List.mem_cons_self _ _))]
    exact ih (fun c2 hc2 => h c2 (List.mem_cons_of_mem _ hc2))

theorem rdropWhile_append_all {p : Char → Bool} (r post : List Char)
    (h : ∀ c ∈ post, p c = true) :
    (r ++ post).rdropWhile p = r.rdropWhile p := by
  induction post using List.reverseRecOn with
  | nil => rw [List.append_nil]
  | append_singleton ps a ih =>
    rw [← List.append_assoc, List.rdropWhile_concat, if_pos (h a (by simp))]
    exact ih (fun c2 hc2 => h c2 (by simp [hc2]))

theorem trim_sandwich {p : Char → Bool} (pre x post : List Char)
    (hpre : ∀ c ∈ pre, p c = true) (hpost : ∀ c ∈ post, p c = true)
    (hh : ∀ c, x.head? = some c → p c = false)
    (hl : ∀ c, x.getLast? = some c → p c = false)
    (hx : x ≠ []) :
    trimIf p (pre ++ x ++ post) = x := by
  obtain ⟨cx, xt, rfl⟩ : ∃ cx xt, x = cx :: xt := by
    cases x with
    | nil => exact absurd rfl hx
    | cons a t => exact ⟨a, t, rfl⟩
  unfold trimIf
  rw [List.append_assoc, dropWhile_append_all pre _ hpre]
  rw [List.cons_append, List.dropWhile_cons, if_neg (by simp [hh cx rfl])]
  rw [← List.cons_append, rdropWhile_append_all _ post hpost]
  rw [List.rdropWhile_eq_self_iff]
  intro hne
  simp [hl ((cx :: xt).getLast hne) (List.getLast?_eq_getLast _ hne)]

theorem removeFences_cons (c : Char) (rest : List Char) :
    removeFences (c :: rest) =
      if fenceMarks.isPrefixOf (c :: rest) then removeFences (dropFence (c :: rest))
      else c :: removeFences rest := by
  rw [removeFences]

theorem removeFences_cons_ne (c : Char) (rest : List Char) (hc : c ≠ bq) :
    removeFences (c :: rest) = c :: removeFences rest := by
  rw [removeFences_cons, if_neg]
  intro hpre
  rw [List.isPrefixOf_iff_prefix,
    show fenceMarks = bq :: [bq, bq] from rfl, List.cons_prefix_cons] at hpre
  exact hc hpre.1.symm

theorem removeFences_append (x : List Char) :
    ∀ s : List Char, ¬ fenceMarks <:+: x →
      (∀ c, x.getLast? = some c → c ≠ bq) →
      removeFences (x ++ s) = x ++ removeFences s := by
  induction x with
  | nil => intro s _ _; simp
  | cons c t ih =>
    intro s hx hlast
    have hlast_t : ∀ c2, t.getLast? = some c2 → c2 ≠ bq := by
      intro c2 hc2
      apply hlast c2
      cases t with
      | nil => simp at hc2
      | cons a t2 => rw [List.getLast?_cons_cons]; exact hc2
    have hx_t : ¬ fenceMarks <:+: t := fun hi => hx (List.infix_cons hi)
    by_cases hc : c = bq
    · subst hc
      cases t with
      | nil => exact absurd rfl (hlast bq (by simp))
      | cons c2 t2 =>
        cases t2 with
        | nil =>
          have hc2 : c2 ≠ bq := hlast c2 (by simp)
          have hpre1 : ¬ fenceMarks.isPrefixOf (bq :: c2 :: s) = true := by
            rw [List.isPrefixOf_iff_prefix,
              show fenceMarks = bq :: bq :: [bq] from rfl,
              List.cons_prefix_cons, List.cons_prefix_cons]
            intro hp
            exact hc2 hp.2.1.symm
          show removeFences (bq :: c2 :: s) = bq :: c2 :: removeFences s
          rw [removeFences_cons, if_neg hpre1, removeFences_cons_ne c2 s hc2]
        | cons c3 t3 =>
          by_cases hbb : c2 = bq ∧ c3 = bq
          · exfalso
            obtain ⟨rfl, rfl⟩ := hbb
            exact hx ⟨[], t3, by simp [fenceMarks]⟩
          · have hpre1 : ¬ fenceMarks.isPrefixOf (bq :: c2 :: c3 :: (t3 ++ s)) = true := by
              rw [List.isPrefixOf_iff_prefix,
                show fenceMarks = bq :: bq :: [bq] from rfl,
                List.cons_prefix_cons, List.cons_prefix_cons, List.cons_prefix_cons]
              intro hp
              exact hbb ⟨hp.2.1.symm, hp.2.2.1.symm⟩
            show removeFences (bq :: ((c2 :: c3 :: t3) ++ s)) =
              bq :: ((c2 :: c3 :: t3) ++ removeFences s)
            rw [show (c2 :: c3 :: t3) ++ s = c2 :: c3 :: (t3 ++ s) from rfl]
            rw [removeFences_cons, if_neg hpre1]
            rw [show c2 :: c3 :: (t3 ++ s) = (c2 :: c3 :: t3) ++ s from rfl]
            rw [ih s hx_t hlast_t]
    · show removeFences (c :: (t ++ s)) = c :: (t ++ removeFences s)
      rw [removeFences_cons_ne c _ hc, ih s hx_t hlast_t]

theorem removeFences_nil : removeFences [] = [] := by
  simp [removeFences]

theorem removeFences_fenceMarks : removeFences fenceMarks = [] := by
  show removeFences (bq :: [bq, bq]) = []
  rw [removeFences_cons,
    if_pos (by rw [List.isPrefixOf_iff_prefix]; exact ⟨[], List.append_nil _⟩)]
  have hd : dropFence (bq :: [bq, bq]) = [] := by
    simp [dropFence, jsonTag, List.isPrefixOf]
  rw [hd, removeFences_nil]

/-- C6: wrapping a JSON object text in markdown code fences does not change
what the JSON parser receives — for every object text x (starting with a
left brace, ending with a right brace, no fence marker inside the
response, optionally surrounded by whitespace pre/post), the fence-wrapped
response and the bare response are both preprocessed to exactly x; since
json.loads is a function of its input text, both parse to the identical
object. -/
theorem fenced_response_parses_identically (pre x post : List Char)
    (hpre : ∀ c ∈ pre, isSpc c = true) (hpost : ∀ c ∈ post, isSpc c = true)
    (hnf : ¬ fenceMarks <:+: (pre ++ x ++ post))
    (hh : x.head? = some lbrace) (hl : x.getLast? = some rbrace) :
    parserInput (fenceMarks ++ jsonTag ++ pre ++ x ++ post ++ fenceMarks) =
      parserInput (pre ++ x ++ post)
    ∧ parserInput (pre ++ x ++ post) = x := by
  have hx_ne : x ≠ [] := by
    intro h
    rw [h] at hh
    simp at hh
  have hhp : ∀ c, x.head? = some c → isSpc c = false := by
    intro c hc
    rw [hh] at hc
    obtain rfl : lbrace = c := Option.some.inj hc
    decide
  have hlp : ∀ c, x.getLast? = some c → isSpc c = false := by
    intro c hc
    rw [hl] at hc
    obtain rfl : rbrace = c := Option.some.inj hc
    decide
  have htrimU : trimIf isSpc (pre ++ x ++ post) = x :=
    trim_sandwich pre x post hpre hpost hhp hlp hx_ne
  have hfx : ¬ fenceMarks <:+: x := by
    intro hi
    exact hnf (hi.trans ⟨pre, post, rfl⟩)
  have hU : parserInput (pre ++ x ++ post) = x := by
    unfold parserInput
    rw [htrimU, show hasFence x = false from decide_eq_false hfx]
    simp
  refine ⟨?_, hU⟩
  have hwh : (fenceMarks ++ jsonTag ++ pre ++ x ++ post ++ fenceMarks).head? =
      some bq := rfl
  have hfl : fenceMarks.getLast? = some bq := by decide
  have hwhead : ∀ c,
      (fenceMarks ++ jsonTag ++ pre ++ x ++ post ++ fenceMarks).head? = some c →
      isSpc c = false := by
    intro c hc
    rw [hwh] at hc
    obtain rfl : bq = c := Option.some.inj hc
    decide
  have hwlast : ∀ c,
      (fenceMarks ++ jsonTag ++ pre ++ x ++ post ++ fenceMarks).getLast? = some c →
      isSpc c = false := by
    intro c hc
    rw [List.getLast?_append, hfl,
      show ∀ y : Option Char, (some bq).or y = some bq from fun y => rfl] at hc
    obtain rfl : bq = c := Option.some.inj hc
    decide
  have htrimW : trimIf isSpc (fenceMarks ++ jsonTag ++ pre ++ x ++ post ++ fenceMarks)
      = fenceMarks ++ jsonTag ++ pre ++ x ++ post ++ fenceMarks :=
    trimIf_eq_self hwhead hwlast
  have hfw : hasFence (fenceMarks ++ jsonTag ++ pre ++ x ++ post ++ fenceMarks)
      = true := by
    apply decide_eq_true
    exact (List.suffix_append _ fenceMarks).isInfix
  have hcomblast : ∀ c, (pre ++ x ++ post).getLast? = some c → c ≠ bq := by
    intro c hc
    rcases List.eq_nil_or_concat post with hpost0 | ⟨ps, a, hpa⟩
    · subst hpost0
      rw [List.append_nil, List.getLast?_append, hl,
        show ∀ y : Option Char, (some rbrace).or y = some rbrace from fun y => rfl] at hc
      obtain rfl : rbrace = c := Option.some.inj hc
      decide
    · rw [hpa, List.concat_eq_append, ← List.append_assoc, List.getLast?_concat] at hc
      obtain rfl : a = c := Option.some.inj hc
      have ha : isSpc a = true := hpost a (by rw [hpa]; simp)
      intro hab
      rw [hab] at ha
      exact absurd ha (by decide)
  have hp7 : fenceMarks.isPrefixOf
      (bq :: bq :: bq :: 'j' :: 's' :: 'o' :: 'n' :: ((pre ++ x ++ post) ++ fenceMarks))
      = true := by
    rw [List.isPrefixOf_iff_prefix]
    exact ⟨'j' :: 's' :: 'o' :: 'n' :: ((pre ++ x ++ post) ++ fenceMarks), rfl⟩
  have hrm1 : removeFences (fenceMarks ++ jsonTag ++ pre ++ x ++ post ++ fenceMarks)
      = removeFences ((pre ++ x ++ post) ++ fenceMarks) := by
    show removeFences
        (bq :: bq :: bq :: 'j' :: 's' :: 'o' :: 'n' :: ((pre ++ x ++ post) ++ fenceMarks))
      = removeFences ((pre ++ x ++ post) ++ fenceMarks)
    rw [removeFences_cons, if_pos hp7]
    congr 1
    simp [dropFence, jsonTag, List.isPrefixOf]
  have hrm2 : removeFences ((pre ++ x ++ post) ++ fenceMarks) = pre ++ x ++ post := by
    rw [removeFences_append (pre ++ x ++ post) fenceMarks hnf hcomblast,
      removeFences_fenceMarks, List.append_nil]
  show parserInput (fenceMarks ++ jsonTag ++ pre ++ x ++ post ++ fenceMarks) =
    parserInput (pre ++ x ++ post)
  rw [hU]
  unfold parserInput
  rw [htrimW, hfw, if_pos rfl, hrm1, hrm2, htrimU]
  apply trimIf_eq_self
  · intro c hc
    rw [hh] at hc
    obtain rfl : lbrace = c := Option.some.inj hc
    decide
  · intro c hc
    rw [hl] at hc
    obtain rfl : rbrace = c := Option.some.inj hc
    decide

/-- C6 witness: the concrete two-character object text consisting of a left
and a right brace, wrapped with no surrounding whitespace, preprocesses to
the same parser input as the bare text, namely itself. -/
theorem fenced_response_parses_identically_witness :
    parserInput (fenceMarks ++ jsonTag ++ [] ++ [lbrace, rbrace] ++ [] ++ fenceMarks)
      = parserInput ([] ++ [lbrace, rbrace] ++ [])
    ∧ parserInput ([] ++ [lbrace, rbrace] ++ []) = [lbrace, rbrace] :=
  fenced_response_parses_identically [] [lbrace, rbrace] []
    (by decide) (by decide) (by decide) (by decide) (by decide)

/-- C7: a failed scoring call yields no assessment rather than raising — the
network-failure outcome returns None, a response whose JSON parsing fails
returns None, exactly one call outcome is consumed per invocation (no
retry), and the pipeline proceeds: a pair with no assessment is skipped by
the scoring loop, which continues on the remaining pairs unchanged. -/
theorem scoring_failure_drops_listing (parse : List Char → Option Assessment) :
    (∀ rest, score_job_with_ollama parse (CallResult.failure :: rest) = (none, rest))
    ∧ (∀ raw rest, parse (parserInput raw) = none →
        (score_job_with_ollama parse (CallResult.success raw :: rest)).1 = none)
    ∧ (∀ calls, calls ≠ [] →
        (score_job_with_ollama parse calls).2 = calls.tail)
    ∧ (∀ (j : Job) rest, scoreFilterLoop ((j, none) :: rest) = scoreFilterLoop rest) := by
  refine ⟨fun rest => rfl, ?_, ?_, ?_⟩
  · intro raw rest h
    simp [score_job_with_ollama, h]
  · intro calls hne
    cases calls with
    | nil => exact absurd rfl hne
    | cons r rest => cases r <;> rfl
  · intro j rest
    rfl

/-- C7 witness: with a parser that always fails, a failed call yields
(none, []) and consumes exactly the one queued outcome. -/
theorem scoring_failure_drops_listing_witness :
    score_job_with_ollama (fun _ => none) [CallResult.failure] = (none, [])
    ∧ (score_job_with_ollama (fun _ => none) [CallResult.failure]).2 = [] :=
  ⟨(scoring_failure_drops_listing (fun _ => none)).1 [],
   (scoring_failure_drops_listing (fun _ => none)).2.2.1 [CallResult.failure]
     (by decide)⟩

theorem boardLoop_titles (b : Board) (cards : List Card) :
    ∀ seen, (∀ j ∈ boardLoop b cards seen, j.title ∉ seen ∧ 5 ≤ j.title.length)
      ∧ ((boardLoop b cards seen).map Job.title).Nodup := by
  induction cards with
  | nil => intro seen; simp [boardLoop]
  | cons card rest ih =>
    intro seen
    by_cases hlen : (trimIf isSpc card.text).length < 10 ∨
        2000 < (trimIf isSpc card.text).length
    · simpa only [boardLoop, if_pos hlen] using ih seen
    · cases hres : resolveCardLink b.url card.href with
      | none =>
        simp only [boardLoop, if_neg hlen, hres]
        exact ih seen
      | some link =>
        cases hlines : linesOf (trimIf isSpc card.text) with
        | nil =>
          simp only [boardLoop, if_neg hlen, hres, hlines]
          exact ih seen
        | cons l0 ltail =>
          by_cases hskip : l0.take 120 ∈ seen ∨ (l0.take 120).length < 5
          · simp only [boardLoop, if_neg hlen, hres, hlines, if_pos hskip]
            exact ih seen
          · simp only [boardLoop, if_neg hlen, hres, hlines, if_neg hskip]
            push_neg at hskip
            obtain ⟨hnotin, hlen5⟩ := hskip
            obtain ⟨ihmem, ihnd⟩ := ih (l0.take 120 :: seen)
            constructor
            · intro j hj
              rcases List.mem_cons.1 hj with rfl | hj
              · exact ⟨hnotin, hlen5⟩
              · obtain ⟨hns, hl5⟩ := ihmem j hj
                exact ⟨fun hc => hns (List.mem_cons_of_mem _ hc), hl5⟩
            · simp only [List.map_cons, List.nodup_cons]
              refine ⟨?_, ihnd⟩
              intro hinmap
              obtain ⟨j2, hj2, htitle⟩ := List.mem_map.1 hinmap
              exact (ihmem j2 hj2).1 (by rw [htitle]; exact List.mem_cons_self _ _)

/-- C9 counterexample: the Himalayas adapter deduplicates by href, not by
title — two cards with different hrefs but the same first text line both
survive, so this page-based adapter's output contains two listings with
the same title. -/
theorem adapter_title_dedup_cex :
    ((scrape_himalayas [hItemA, hItemB]).map Job.title) =
      ["Backend Engineer".toList, "Backend Engineer".toList]
    ∧ ¬ ((scrape_himalayas [hItemA, hItemB]).map Job.title).Nodup := by
  constructor
  · decide
  · decide

/-- C9 (amended): only the generic scrape_board adapter of job_agent.py
deduplicates candidates by title (skipping a title below five characters
or already emitted in the same run), so its output never contains two
listings with the same title and every emitted title has at least five
characters; the Himalayas adapter of job_agent_2.py deduplicates by href
and the Working Nomads adapter not at all, so their outputs can repeat
titles. -/
theorem board_title_dedup (b : Board) (cards : List Card) :
    ((scrape_board b cards).map Job.title).Nodup
    ∧ ∀ j ∈ scrape_board b cards, 5 ≤ j.title.length := by
  refine ⟨(boardLoop_titles b (cards.take 60) []).2, ?_⟩
  intro j hj
  exact ((boardLoop_titles b (cards.take 60) []).1 j hj).2

/-- C9 witness: on a concrete card the generic scraper emits one listing,
whose title has at least five characters. -/
theorem board_title_dedup_witness :
    jobEx ∈ scrape_board boardEx [cardEx] ∧ 5 ≤ jobEx.title.length :=
  ⟨by decide, (board_title_dedup boardEx [cardEx]).2 jobEx (by decide)⟩
